import Mathlib

/-!
Shallow embedding of `src/language-server/project/client.ts`
(`GraphQLClientProject`) from the vscode-graphql repository.

GraphQL AST nodes are modelled by the small inductive `DefinitionNode`
below: an executable definition is abstracted to its kind, its (optional)
name, and the ordered list of fragment-spread names a `visit` traversal
finds inside it; type-system definitions keep only what the code inspects
(whether they are directive definitions, and the directive name).
JavaScript objects used as string-keyed dictionaries are modelled as
association lists with insert-or-replace (`objInsert`) and first-match
lookup (`alistLookup`); since `objInsert` keeps keys unique, first-match
lookup agrees with JavaScript property access.

Functions of the repository that live in modules other than `client.ts`
(the graphql utilities `removeDirectives`, `removeDirectiveAnnotatedFields`,
`withTypenameFieldAddedWhereNeeded`, the diagnostics helpers
`collectExecutableDefinitionDiagnositics` and `diagnosticsFromError`, and
`formatMS`) are taken as opaque function parameters: the claims proved
here are decided by the control flow of `client.ts` alone, for every
behaviour of those helpers.
-/

namespace Client

/-- GraphQL definition nodes, restricted to the data the project code
reads: operation definitions (optional name, fragment spreads found by
`visit`), fragment definitions (name, fragment spreads), directive
definitions (name), and any other definition (opaque tag). -/
inductive DefinitionNode where
  | operationDefinition (name : Option String) (spreads : List String)
  | fragmentDefinition (name : String) (spreads : List String)
  | directiveDefinition (name : String)
  | otherDefinition (tag : String)
deriving DecidableEq

/-- The fragment-spread names a `visit` traversal reports inside a
definition node, in traversal order. -/
def spreadsOf : DefinitionNode → List String
  | DefinitionNode.operationDefinition _ spreads => spreads
  | DefinitionNode.fragmentDefinition _ spreads => spreads
  | DefinitionNode.directiveDefinition _ => []
  | DefinitionNode.otherDefinition _ => []

/-- First-match lookup in an association list, the semantics of property
access on a JavaScript object whose keys are unique. -/
def alistLookup {α : Type} : List (String × α) → String → Option α
  | [], _ => none
  | p :: rest, k => if p.1 = k then some p.2 else alistLookup rest k

/-- JavaScript object assignment `m[k] = v`: replace the value of an
existing key in place, otherwise append the new key at the end. -/
def objInsert {α : Type} : List (String × α) → String → α → List (String × α)
  | [], k, v => [(k, v)]
  | p :: rest, k, v => if p.1 = k then (k, v) :: rest else p :: objInsert rest k v

/-- The schema data the project code reads from a `GraphQLSchema`: the
names of its directives (`schema.getDirectives().map(d => d.name)`). -/
structure SchemaModel where
  directiveNames : List String
deriving DecidableEq

/-- `isDirectiveDefinitionNode` from the graphql utilities: whether a
definition node is a directive definition. -/
def isDirectiveDefinitionNode : DefinitionNode → Bool
  | DefinitionNode.directiveDefinition _ => true
  | _ => false

/-- The `def.name.value` projection used after filtering to directive
definitions; returns the empty string elsewhere (never reached after the
filter). -/
def directiveDefinitionName : DefinitionNode → String
  | DefinitionNode.directiveDefinition n => n
  | _ => ""

/-- The directive names of the (optional) service schema, `[]` when the
service schema is not loaded. -/
def serviceDirectiveNames : Option SchemaModel → List String
  | some schema => schema.directiveNames
  | none => []

/-- Directive names explicitly declared by a list of definitions:
`defs.filter(isDirectiveDefinitionNode).map(def => def.name.value)`. -/
def declaredDirectiveNames (defs : List DefinitionNode) : List String :=
  (defs.filter isDirectiveDefinitionNode).map directiveDefinitionName

/-- The `for (const existingDirective of existingDirectives)` loop of
`missingApolloClientDirectives`: true as soon as one existing directive
name occurs among the apollo directive names. -/
def hasDirectiveOverlap : List String → List String → Bool
  | [], _ => false
  | existing :: rest, apolloDirectives =>
    if existing ∈ apolloDirectives then true else hasDirectiveOverlap rest apolloDirectives

/-- `GraphQLClientProject.missingApolloClientDirectives`
(client.ts lines 229-259): collect the service schema's directive names
and the directive names declared by the client type-system definitions;
if the standard apollo client-directive document shares any directive
name with them, inject nothing, otherwise inject all of the apollo
document's definitions. -/
def missingApolloClientDirectives (serviceSchema : Option SchemaModel)
    (typeSystemDefinitionsAndExtensions : List DefinitionNode)
    (apolloAst : Option (List DefinitionNode)) : List DefinitionNode :=
  let serviceDirectives := serviceDirectiveNames serviceSchema
  let clientDirectives := declaredDirectiveNames typeSystemDefinitionsAndExtensions
  let existingDirectives := serviceDirectives ++ clientDirectives
  match apolloAst with
  | none => []
  | some apolloDefinitions =>
    let apolloDirectives := declaredDirectiveNames apolloDefinitions
    if hasDirectiveOverlap existingDirectives apolloDirectives then []
    else apolloDefinitions

/-- A tracked document: a source file's parsed AST (list of definitions),
or `none` when the parse failed upstream. -/
structure DocumentModel where
  ast : Option (List DefinitionNode)
deriving DecidableEq

/-- Whether a definition is an operation definition without a name. -/
def isAnonymousOperation : DefinitionNode → Bool
  | DefinitionNode.operationDefinition none _ => true
  | _ => false

/-- Whether a definition is a fragment definition. -/
def isFragmentDefinitionNode : DefinitionNode → Bool
  | DefinitionNode.fragmentDefinition _ _ => true
  | _ => false

/-- Whether some tracked document with a present AST contains an
anonymous operation definition. -/
def containsAnonymousOperation (documents : List DocumentModel) : Bool :=
  documents.any (fun doc => (doc.ast.getD []).any isAnonymousOperation)

/-- The data of a thrown `GraphQLError` that `client.ts` reads: the
message, the nodes passed to the constructor, `error.source.name` (the
URI of the originating source, when resolvable), and whether the thrown
value is a `GraphQLError` at all (`error instanceof GraphQLError`). -/
structure GraphQLErrorModel where
  message : String
  nodes : List DefinitionNode
  sourceUri : Option String
  isGraphQLError : Bool
deriving DecidableEq

/-- The error thrown by the `operations` accessor at an anonymous
operation definition. -/
def anonymousOperationError (d : DefinitionNode) : GraphQLErrorModel :=
  ⟨"Apollo does not support anonymous operations", [d], none, true⟩

/-- Body of the `fragments` accessor's inner loop (client.ts lines
462-467): record every fragment definition under its name. -/
def insertFragments : List (String × DefinitionNode) → List DefinitionNode →
    List (String × DefinitionNode)
  | m, [] => m
  | m, d :: ds =>
    match d with
    | DefinitionNode.fragmentDefinition n sp =>
      insertFragments (objInsert m n (DefinitionNode.fragmentDefinition n sp)) ds
    | _ => insertFragments m ds

/-- Outer loop of the `fragments` accessor over all tracked documents,
skipping documents with an absent AST. -/
def fragmentsLoop : List (String × DefinitionNode) → List DocumentModel →
    List (String × DefinitionNode)
  | m, [] => m
  | m, doc :: docs =>
    match doc.ast with
    | none => fragmentsLoop m docs
    | some defs => fragmentsLoop (insertFragments m defs) docs

/-- `GraphQLClientProject.fragments` (client.ts lines 458-469). -/
def fragments (documents : List DocumentModel) : List (String × DefinitionNode) :=
  fragmentsLoop [] documents

/-- Body of the `operations` accessor's inner loop (client.ts lines
475-486): throw on an anonymous operation definition, record every named
operation definition under its name. -/
def insertOperations : List (String × DefinitionNode) → List DefinitionNode →
    Except GraphQLErrorModel (List (String × DefinitionNode))
  | m, [] => Except.ok m
  | m, d :: ds =>
    match d with
    | DefinitionNode.operationDefinition none sp =>
      Except.error (anonymousOperationError (DefinitionNode.operationDefinition none sp))
    | DefinitionNode.operationDefinition (some n) sp =>
      insertOperations (objInsert m n (DefinitionNode.operationDefinition (some n) sp)) ds
    | _ => insertOperations m ds

/-- Outer loop of the `operations` accessor over all tracked documents,
skipping documents with an absent AST and propagating a thrown error. -/
def operationsLoop : List (String × DefinitionNode) → List DocumentModel →
    Except GraphQLErrorModel (List (String × DefinitionNode))
  | m, [] => Except.ok m
  | m, doc :: docs =>
    match doc.ast with
    | none => operationsLoop m docs
    | some defs =>
      match insertOperations m defs with
      | Except.ok m2 => operationsLoop m2 docs
      | Except.error e => Except.error e

/-- `GraphQLClientProject.operations` (client.ts lines 471-488). -/
def operations (documents : List DocumentModel) :
    Except GraphQLErrorModel (List (String × DefinitionNode)) :=
  operationsLoop [] documents

/-- The (name, definition) pairs of the fragment definitions of a
definition list, in scan order. -/
def fragmentPairsOf : List DefinitionNode → List (String × DefinitionNode)
  | [] => []
  | DefinitionNode.fragmentDefinition n sp :: ds =>
    (n, DefinitionNode.fragmentDefinition n sp) :: fragmentPairsOf ds
  | _ :: ds => fragmentPairsOf ds

/-- The (name, definition) pairs of the named operation definitions of a
definition list, in scan order. -/
def operationPairsOf : List DefinitionNode → List (String × DefinitionNode)
  | [] => []
  | DefinitionNode.operationDefinition (some n) sp :: ds =>
    (n, DefinitionNode.operationDefinition (some n) sp) :: operationPairsOf ds
  | _ :: ds => operationPairsOf ds

/-- Follows the spec's words for claim C8: the fragment definitions of
the snapshot in document-scan order ("last-scanned" is the last element
of this list with a given name). -/
def scannedFragmentPairs : List DocumentModel → List (String × DefinitionNode)
  | [] => []
  | doc :: docs =>
    (match doc.ast with
     | none => []
     | some defs => fragmentPairsOf defs) ++ scannedFragmentPairs docs

/-- Follows the spec's words for claim C8: the named operation
definitions of the snapshot in document-scan order. -/
def scannedOperationPairs : List DocumentModel → List (String × DefinitionNode)
  | [] => []
  | doc :: docs =>
    (match doc.ast with
     | none => []
     | some defs => operationPairsOf defs) ++ scannedOperationPairs docs

/-- Repeated JavaScript object assignment of a list of (key, value)
pairs, in order. -/
def insertPairs {α : Type} : List (String × α) → List (String × α) → List (String × α)
  | m, [] => m
  | m, p :: ps => insertPairs (objInsert m p.1 p.2) ps

/-- The snapshot restricted to what the `fragments` accessor reads:
documents without an AST are dropped and non-fragment definitions are
removed. -/
def restrictToFragments (documents : List DocumentModel) : List DocumentModel :=
  documents.filterMap (fun doc =>
    match doc.ast with
    | none => none
    | some defs => some ⟨some (defs.filter isFragmentDefinitionNode)⟩)

/-- A concrete two-file snapshot in which both files define a fragment
named `F` and an operation named `Q`. -/
def demoDualDocs : List DocumentModel :=
  [DocumentModel.mk (some [DefinitionNode.fragmentDefinition "F" ["a"],
      DefinitionNode.operationDefinition (some "Q") ["x"]]),
    DocumentModel.mk (some [DefinitionNode.fragmentDefinition "F" ["b"],
      DefinitionNode.operationDefinition (some "Q") ["y"]])]

/-- State of the `getOperationWithFragments` worklist: the seen fragment
names, the queue of definitions still to scan, and the accumulated result
list. -/
structure SearchState where
  seen : List String
  queue : List DefinitionNode
  all : List DefinitionNode
deriving DecidableEq

/-- The `FragmentSpread` visitor of `getOperationWithFragments`
(client.ts lines 587-597), run over the spread names of the current
definition in traversal order: each name that is not yet seen and is
present in the fragment registry is marked seen and its definition is
appended to both the queue and the result list. -/
def searchStep (frags : List (String × DefinitionNode)) :
    List String → SearchState → SearchState
  | [], st => st
  | fragmentName :: ns, st =>
    if fragmentName ∈ st.seen then searchStep frags ns st
    else
      match alistLookup frags fragmentName with
      | some fragment =>
        searchStep frags ns
          ⟨fragmentName :: st.seen, st.queue ++ [fragment], st.all ++ [fragment]⟩
      | none => searchStep frags ns st

/-- Number of distinct registry keys not yet seen; together with the
queue length this is the termination measure of the worklist loop. -/
def unseenCount (frags : List (String × DefinitionNode)) (seen : List String) : Nat :=
  (((frags.map Prod.fst).toFinset).filter (fun fragName => fragName ∉ seen)).card

/-- The `while ((currentDefinition = defintionsToSearch.shift()))` loop of
`getOperationWithFragments` (client.ts lines 586-598). -/
def searchLoop (frags : List (String × DefinitionNode)) (queue : List DefinitionNode)
    (seen : List String) (all : List DefinitionNode) : List DefinitionNode :=
  match queue with
  | [] => all
  | cur :: rest =>
    searchLoop frags (searchStep frags (spreadsOf cur) ⟨seen, rest, all⟩).queue
      (searchStep frags (spreadsOf cur) ⟨seen, rest, all⟩).seen
      (searchStep frags (spreadsOf cur) ⟨seen, rest, all⟩).all
termination_by queue.length + unseenCount frags seen
decreasing_by
  have hmemOfLookup : ∀ (l : List (String × DefinitionNode)) (k : String) (v : DefinitionNode),
      alistLookup l k = some v → k ∈ l.map Prod.fst := by
    intro l
    induction l with
    | nil =>
      intro k v h
      simp [alistLookup] at h
    | cons p restl ih =>
      intro k v h
      by_cases hp : p.1 = k
      · simp [List.map_cons, List.mem_cons, hp]
      · simp only [alistLookup, if_neg hp] at h
        simp [List.map_cons, List.mem_cons, ih k v h]
  have key : ∀ (ns : List String) (st : SearchState),
      (searchStep frags ns st).queue.length + unseenCount frags (searchStep frags ns st).seen ≤
        st.queue.length + unseenCount frags st.seen := by
    intro ns
    induction ns with
    | nil =>
      intro st
      exact Nat.le_refl _
    | cons n ns ih =>
      intro st
      by_cases hseen : n ∈ st.seen
      · have hstep : searchStep frags (n :: ns) st = searchStep frags ns st := by
          simp [searchStep, hseen]
        rw [hstep]
        exact ih st
      · cases hlook : alistLookup frags n with
        | none =>
          have hstep : searchStep frags (n :: ns) st = searchStep frags ns st := by
            simp [searchStep, hseen, hlook]
          rw [hstep]
          exact ih st
        | some fragment =>
          have hkeyMem : n ∈ (frags.map Prod.fst).toFinset := by
            simpa [List.mem_toFinset] using hmemOfLookup frags n fragment hlook
          have hfiltermem :
              n ∈ ((frags.map Prod.fst).toFinset).filter (fun fragName => fragName ∉ st.seen) :=
            Finset.mem_filter.mpr ⟨hkeyMem, hseen⟩
          have herase :
              ((frags.map Prod.fst).toFinset).filter (fun fragName => fragName ∉ n :: st.seen) =
                (((frags.map Prod.fst).toFinset).filter
                  (fun fragName => fragName ∉ st.seen)).erase n := by
            ext x
            simp only [Finset.mem_filter, Finset.mem_erase, List.mem_cons]
            tauto
          have hcard : unseenCount frags (n :: st.seen) = unseenCount frags st.seen - 1 := by
            simp only [unseenCount, herase]
            exact Finset.card_erase_of_mem hfiltermem
          have hpos : 0 < unseenCount frags st.seen := Finset.card_pos.mpr ⟨n, hfiltermem⟩
          have hstep : searchStep frags (n :: ns) st =
              searchStep frags ns
                ⟨n :: st.seen, st.queue ++ [fragment], st.all ++ [fragment]⟩ := by
            simp [searchStep, hseen, hlook]
          rw [hstep]
          have hle := ih ⟨n :: st.seen, st.queue ++ [fragment], st.all ++ [fragment]⟩
          simp only [List.length_append, List.length_cons, List.length_nil] at hle
          omega
  have hfinal : (searchStep frags (spreadsOf cur) ⟨seen, rest, all⟩).queue.length +
      unseenCount frags (searchStep frags (spreadsOf cur) ⟨seen, rest, all⟩).seen ≤
        rest.length + unseenCount frags seen := key (spreadsOf cur) ⟨seen, rest, all⟩
  simp only [List.length_cons]
  omega

/-- `GraphQLClientProject.getOperationWithFragments` (client.ts lines
575-601): breadth-first closure of an operation over its fragment
spreads, seeded with the operation itself. -/
def getOperationWithFragments (frags : List (String × DefinitionNode))
    (operationDef : DefinitionNode) : List DefinitionNode :=
  searchLoop frags [operationDef] [] [operationDef]

/-- Follows the spec's words for claim C3: the fragments first discovered
while scanning a list of spread names left to right — each name that is
not yet seen and resolves in the registry contributes its definition once
and marks its name seen. Returns the discovered definitions in discovery
order together with the extended seen set. -/
def discoverSpreads (frags : List (String × DefinitionNode)) :
    List String → List String → List DefinitionNode × List String
  | [], seen => ([], seen)
  | n :: ns, seen =>
    if n ∈ seen then discoverSpreads frags ns seen
    else
      match alistLookup frags n with
      | some fragment =>
        let r := discoverSpreads frags ns (n :: seen)
        (fragment :: r.1, r.2)
      | none => discoverSpreads frags ns seen

/-- Follows the spec's words for claim C3: one level of the breadth-first
traversal — the fragments first discovered from the spread names of the
level's definitions, scanned left to right under one shared seen set. -/
def discoverLevel (frags : List (String × DefinitionNode)) :
    List DefinitionNode → List String → List DefinitionNode × List String
  | [], seen => ([], seen)
  | d :: ds, seen =>
    let r1 := discoverSpreads frags (spreadsOf d) seen
    let r2 := discoverLevel frags ds r1.2
    (r1.1 ++ r2.1, r2.2)

/-- Follows the spec's words for claim C3: the concatenation of the
successive breadth-first levels (each level's newly discovered fragments
become the next level), truncated by fuel; enough fuel makes every later
level empty. -/
def bfsLevels (frags : List (String × DefinitionNode)) :
    Nat → List DefinitionNode → List String → List DefinitionNode
  | 0, _, _ => []
  | fuel + 1, level, seen =>
    let r := discoverLevel frags level seen
    r.1 ++ bfsLevels frags fuel r.1 r.2

/-- Follows the spec's words for claim C3: the breadth-first closure of
an operation — the operation first, then the reachable registry fragments
in first-discovered breadth-first order, level by level. The fuel
`frags.length + 1` exceeds the number of distinct registry keys, so no
level is ever truncated. -/
def breadthFirstClosure (frags : List (String × DefinitionNode))
    (operationDef : DefinitionNode) : List DefinitionNode :=
  operationDef :: bfsLevels frags (frags.length + 1) [operationDef] []

/-- A GraphQL document as the service projector sees it: a list of
definitions, any of which may have been nulled out by the filtering
utilities (`definitions.filter(Boolean)` drops the nulled ones). -/
structure DocumentNodeModel where
  definitions : List (Option DefinitionNode)
deriving DecidableEq

/-- The guard `!list || !list.length` applied to each configured
directive-name list. -/
def emptyDirectiveConfig : Option (List String) → Bool
  | none => true
  | some l => l.isEmpty

/-- Per-document body of the service projection (client.ts lines
518-524): remove client-only directive annotations, remove fields
annotated with a client-schema directive, then optionally add typename
fields. The three utilities live outside `client.ts` and are opaque
function parameters. -/
def serviceOnlyDocument (clientOnlyDirectives clientSchemaDirectives : Option (List String))
    (addTypename : Bool)
    (removeDirectivesFn : DocumentNodeModel → Option (List String) → DocumentNodeModel)
    (removeAnnotatedFieldsFn : DocumentNodeModel → Option (List String) → DocumentNodeModel)
    (withTypenameFn : DocumentNodeModel → DocumentNodeModel)
    (document : DocumentNodeModel) : DocumentNodeModel :=
  let serviceOnly :=
    removeAnnotatedFieldsFn (removeDirectivesFn document clientOnlyDirectives)
      clientSchemaDirectives
  if addTypename then withTypenameFn serviceOnly else serviceOnly

/-- The `for (const operationName in current)` loop of the service
projection (client.ts lines 515-530): keep an operation only when its
projected document still has a non-empty definition. -/
def projectLoop (project : DocumentNodeModel → DocumentNodeModel) :
    List (String × DocumentNodeModel) → List (String × DocumentNodeModel) →
    List (String × DocumentNodeModel)
  | filtered, [] => filtered
  | filtered, (operationName, document) :: rest =>
    if ((project document).definitions.filterMap id).length ≠ 0 then
      projectLoop project (objInsert filtered operationName (project document)) rest
    else
      projectLoop project filtered rest

/-- `GraphQLClientProject.mergedOperationsAndFragmentsForService`
(client.ts lines 502-533): identity when neither directive list is
configured, otherwise the filtering loop. -/
def mergedOperationsAndFragmentsForService
    (clientOnlyDirectives clientSchemaDirectives : Option (List String))
    (addTypename : Bool)
    (removeDirectivesFn : DocumentNodeModel → Option (List String) → DocumentNodeModel)
    (removeAnnotatedFieldsFn : DocumentNodeModel → Option (List String) → DocumentNodeModel)
    (withTypenameFn : DocumentNodeModel → DocumentNodeModel)
    (current : List (String × DocumentNodeModel)) : List (String × DocumentNodeModel) :=
  if emptyDirectiveConfig clientOnlyDirectives && emptyDirectiveConfig clientSchemaDirectives then
    current
  else
    projectLoop
      (serviceOnlyDocument clientOnlyDirectives clientSchemaDirectives addTypename
        removeDirectivesFn removeAnnotatedFieldsFn withTypenameFn)
      [] current

/-- A diagnostic record; only its identity matters to the claims. -/
structure DiagnosticModel where
  message : String
  severity : Nat
deriving DecidableEq

/-- What one `validate` pass produces: the schema used for the remainder
of the pass, the diagnostic set grouped by URI, and the per-file
`onDiagnostics` callback payloads (one per diagnostic-set entry). -/
structure ValidateOutcome where
  schema : SchemaModel
  diagnosticSet : List (String × List DiagnosticModel)
  onDiagnosticsCalls : List (String × List DiagnosticModel)
deriving DecidableEq

/-- Modelled from the spec: `DiagnosticSet.addDiagnostics` of the
diagnostics module (not under src/) — a mapping from source URI to an
ordered sequence of diagnostics, append-only during one pass. -/
def addDiagnostics : List (String × List DiagnosticModel) → String → List DiagnosticModel →
    List (String × List DiagnosticModel)
  | [], uri, diagnostics => [(uri, diagnostics)]
  | entry :: rest, uri, diagnostics =>
    if entry.1 = uri then (entry.1, entry.2 ++ diagnostics) :: rest
    else entry :: addDiagnostics rest uri diagnostics

/-- The per-file validation loop of `validate` (client.ts lines 311-323):
for every file and every of its documents, add the diagnostics collected
against the working schema to that file's entry. -/
def collectFileDiagnostics {α : Type} (schema : SchemaModel)
    (collect : SchemaModel → α → List DiagnosticModel) :
    List (String × List DiagnosticModel) → List (String × List α) →
    List (String × List DiagnosticModel)
  | set, [] => set
  | set, (uri, docsForFile) :: rest =>
    collectFileDiagnostics schema collect
      (docsForFile.foldl (fun s document => addDiagnostics s uri (collect schema document)) set)
      rest

/-- The diagnostics recorded for a URI (empty when the URI has no entry). -/
def lookupDiagnostics (set : List (String × List DiagnosticModel)) (uri : String) :
    List DiagnosticModel :=
  (alistLookup set uri).getD []

/-- `GraphQLClientProject.validate` (client.ts lines 285-331): early
return when no `onDiagnostics` handler or no service schema is present;
otherwise try to compose the client schema onto the service schema —
on failure convert a `GraphQLError` with a resolvable source into a
diagnostic at that source's URI and fall back to the bare service schema
— then run per-document validation with the working schema and emit one
`onDiagnostics` call per diagnostic-set entry. Composition
(`extendSchema` plus metadata attachment) and the diagnostics helpers
are opaque parameters; the trailing `generateDecorations()` call is
modelled separately. -/
def validate {α : Type} (hasOnDiagnostics : Bool) (serviceSchema : Option SchemaModel)
    (composeResult : Except GraphQLErrorModel SchemaModel)
    (diagnosticsFromError : GraphQLErrorModel → List DiagnosticModel)
    (collect : SchemaModel → α → List DiagnosticModel)
    (documentsByFile : List (String × List α)) : Option ValidateOutcome :=
  if hasOnDiagnostics = false then none
  else
    match serviceSchema with
    | none => none
    | some service =>
      let afterCompose : List (String × List DiagnosticModel) × SchemaModel :=
        match composeResult with
        | Except.ok composed => ([], composed)
        | Except.error err =>
          ((if err.isGraphQLError then
              match err.sourceUri with
              | some uri => addDiagnostics [] uri (diagnosticsFromError err)
              | none => []
            else []), service)
      let finalSet :=
        collectFileDiagnostics afterCompose.2 collect afterCompose.1 documentsByFile
      some ⟨afterCompose.2, finalSet, finalSet⟩

/-- Node kinds distinguished by the decoration visitor. -/
inductive NodeKind where
  | field
  | operationDefinition
  | other
deriving DecidableEq

/-- One node as the type-tracking `visit` of `generateDecorations`
presents it: its kind, its `name.value`, the parent type the `TypeInfo`
resolves at this node (if any), and the (abstracted) source range
`rangeForASTNode` would produce for it. -/
structure VisitedNode where
  kind : NodeKind
  name : String
  parentType : Option String
  range : Nat
deriving DecidableEq

/-- An editor decoration: a text hint anchored at a range, or a
run-in-explorer glyph anchored at an operation's range. -/
inductive DecorationModel where
  | text (document : String) (message : String) (range : Nat)
  | runGlyph (document : String) (range : Nat) (hoverMessage : String)
deriving DecidableEq

/-- The latency sample the code reads for a parent type and field name:
`fieldLatenciesMS.get(parentName)?.get(fieldName)`, `none` when the
stats map is absent or has no matching entry. -/
def latencySample (fieldLatenciesMS : Option (List (String × List (String × Nat))))
    (parentName fieldName : String) : Option Nat :=
  match fieldLatenciesMS with
  | none => none
  | some latencies =>
    (alistLookup latencies parentName).bind (fun perField => alistLookup perField fieldName)

/-- The `enter` visitor of `generateDecorations` (client.ts lines
375-447) at one node: a `Field` with a resolvable parent type, a present
latency-stats map and a matching sample strictly greater than 1 yields a
text decoration at the field's range; an `OperationDefinition` yields a
run-in-explorer glyph; every other node yields nothing. The duration
formatter and the explorer-link construction are opaque parameters. -/
def enterNode (fieldLatenciesMS : Option (List (String × List (String × Nat))))
    (formatDuration : Nat → String) (runInExplorerLink : VisitedNode → String)
    (uri : String) (node : VisitedNode) : Option DecorationModel :=
  match node.kind, node.parentType, fieldLatenciesMS with
  | NodeKind.field, some parentName, some latencies =>
    (match (alistLookup latencies parentName).bind
        (fun perField => alistLookup perField node.name) with
     | some engineStatMS =>
       if 1 < engineStatMS then
         some (DecorationModel.text uri ("~" ++ formatDuration engineStatMS) node.range)
       else none
     | none => none)
  | NodeKind.operationDefinition, _, _ =>
    some (DecorationModel.runGlyph uri node.range (runInExplorerLink node))
  | _, _, _ => none

/-- `GraphQLClientProject.generateDecorations` (client.ts lines 361-456):
early return without a handler or schema, otherwise visit every document
with a present AST and collect the decorations of every node. -/
def generateDecorations (hasOnDecorations : Bool) (schema : Option SchemaModel)
    (fieldLatenciesMS : Option (List (String × List (String × Nat))))
    (formatDuration : Nat → String) (runInExplorerLink : VisitedNode → String)
    (documentsByFile : List (String × List (Option (List VisitedNode)))) :
    Option (List DecorationModel) :=
  if hasOnDecorations = false then none
  else
    match schema with
    | none => none
    | some _ =>
      some (documentsByFile.foldl (fun decorations fileEntry =>
        fileEntry.2.foldl (fun decorations queryDocument =>
          match queryDocument with
          | none => decorations
          | some nodes =>
            decorations ++
              nodes.filterMap (enterNode fieldLatenciesMS formatDuration runInExplorerLink
                fileEntry.1))
          decorations) [])

theorem alistLookup_objInsert {α : Type} (m : List (String × α)) (k : String) (v : α)
    (n : String) :
    alistLookup (objInsert m k v) n = if n = k then some v else alistLookup m n := by
  induction m with
  | nil =>
    by_cases h : k = n
    · simp [objInsert, alistLookup, h]
    · have h2 : ¬ n = k := fun hc => h hc.symm
      simp [objInsert, alistLookup, h, h2]
  | cons p rest ih =>
    simp only [objInsert]
    by_cases hpk : p.1 = k
    · simp only [if_pos hpk, alistLookup]
      by_cases hkn : k = n
      · simp [hkn]
      · have h2 : ¬ n = k := fun hc => hkn hc.symm
        have hpn : ¬ p.1 = n := fun hc => hkn (by rw [← hpk, hc])
        simp [hkn, h2, hpn]
    · simp only [if_neg hpk, alistLookup]
      by_cases hpn : p.1 = n
      · have hnk : ¬ n = k := fun hc => hpk (by rw [hpn, hc])
        simp [hpn, hnk]
      · simp [hpn, ih]

theorem mem_map_fst_objInsert {α : Type} (m : List (String × α)) (k : String) (v : α)
    (a : String) :
    a ∈ (objInsert m k v).map Prod.fst ↔ a ∈ m.map Prod.fst ∨ a = k := by
  induction m with
  | nil => simp [objInsert]
  | cons p rest ih =>
    simp only [objInsert]
    by_cases hpk : p.1 = k
    · subst hpk
      rw [if_pos rfl]
      simp only [List.map_cons, List.mem_cons]
      tauto
    · simp only [if_neg hpk, List.map_cons, List.mem_cons, ih]
      tauto

theorem hasDirectiveOverlap_eq_true_iff (l1 l2 : List String) :
    hasDirectiveOverlap l1 l2 = true ↔ ∃ n, n ∈ l1 ∧ n ∈ l2 := by
  induction l1 with
  | nil => simp [hasDirectiveOverlap]
  | cons x rest ih =>
    by_cases hx : x ∈ l2
    · constructor
      · intro _
        exact ⟨x, List.mem_cons_self x rest, hx⟩
      · intro _
        simp [hasDirectiveOverlap, hx]
    · simp only [hasDirectiveOverlap, if_neg hx, ih]
      constructor
      · rintro ⟨n, hn1, hn2⟩
        exact ⟨n, List.mem_cons_of_mem x hn1, hn2⟩
      · rintro ⟨n, hn1, hn2⟩
        rcases List.mem_cons.mp hn1 with h | h
        · exact absurd (h ▸ hn2) hx
        · exact ⟨n, h, hn2⟩

/-- C1: the standard client-directive library is injected all-or-nothing:
if any directive name of the service schema or of the client's declared
directive definitions also occurs among the standard library's directive
names, no standard definition is injected; if there is no such overlap,
every definition of the standard library document is injected verbatim. -/
theorem missingApolloClientDirectives_all_or_nothing (serviceSchema : Option SchemaModel)
    (typeSystemDefs apolloDefs : List DefinitionNode) :
    ((∃ n, n ∈ serviceDirectiveNames serviceSchema ++ declaredDirectiveNames typeSystemDefs ∧
        n ∈ declaredDirectiveNames apolloDefs) →
      missingApolloClientDirectives serviceSchema typeSystemDefs (some apolloDefs) = [])
    ∧ ((¬ ∃ n, n ∈ serviceDirectiveNames serviceSchema ++ declaredDirectiveNames typeSystemDefs ∧
        n ∈ declaredDirectiveNames apolloDefs) →
      missingApolloClientDirectives serviceSchema typeSystemDefs (some apolloDefs) = apolloDefs) := by
  constructor
  · intro h
    have hov : hasDirectiveOverlap
        (serviceDirectiveNames serviceSchema ++ declaredDirectiveNames typeSystemDefs)
        (declaredDirectiveNames apolloDefs) = true :=
      (hasDirectiveOverlap_eq_true_iff _ _).mpr h
    simp [missingApolloClientDirectives, hov]
  · intro h
    have hov : hasDirectiveOverlap
        (serviceDirectiveNames serviceSchema ++ declaredDirectiveNames typeSystemDefs)
        (declaredDirectiveNames apolloDefs) = false := by
      rcases hb : hasDirectiveOverlap
          (serviceDirectiveNames serviceSchema ++ declaredDirectiveNames typeSystemDefs)
          (declaredDirectiveNames apolloDefs) with _ | _
      · rfl
      · exact absurd ((hasDirectiveOverlap_eq_true_iff _ _).mp hb) h
    simp [missingApolloClientDirectives, hov]

/-- Witness for C1 at concrete inputs: with the standard library declaring
the directive `client`, a service schema already declaring `client` gets
nothing injected, while a service schema declaring only `deprecated` gets
the full standard document injected verbatim. -/
theorem missingApolloClientDirectives_all_or_nothing_witness :
    missingApolloClientDirectives (some ⟨["client"]⟩) []
        (some [DefinitionNode.directiveDefinition "client"]) = []
    ∧ missingApolloClientDirectives (some ⟨["deprecated"]⟩) []
        (some [DefinitionNode.directiveDefinition "client", DefinitionNode.otherDefinition "x"]) =
      [DefinitionNode.directiveDefinition "client", DefinitionNode.otherDefinition "x"] :=
  ⟨(missingApolloClientDirectives_all_or_nothing (some ⟨["client"]⟩) []
      [DefinitionNode.directiveDefinition "client"]).1 ⟨"client", by decide, by decide⟩,
    (missingApolloClientDirectives_all_or_nothing (some ⟨["deprecated"]⟩) []
      [DefinitionNode.directiveDefinition "client", DefinitionNode.otherDefinition "x"]).2
      (by decide)⟩

theorem alistLookup_append {α : Type} (l1 l2 : List (String × α)) (n : String) :
    alistLookup (l1 ++ l2) n =
      match alistLookup l1 n with
      | some v => some v
      | none => alistLookup l2 n := by
  induction l1 with
  | nil => simp [alistLookup]
  | cons p rest ih =>
    by_cases hp : p.1 = n
    · simp [alistLookup, hp]
    · simp [alistLookup, hp, ih]

theorem alistLookup_insertPairs {α : Type} (ps : List (String × α)) :
    ∀ (m : List (String × α)) (n : String),
      alistLookup (insertPairs m ps) n =
        match alistLookup ps.reverse n with
        | some v => some v
        | none => alistLookup m n := by
  induction ps with
  | nil =>
    intro m n
    simp [insertPairs, alistLookup]
  | cons p ps ih =>
    intro m n
    simp only [insertPairs]
    rw [ih, List.reverse_cons, alistLookup_append]
    cases h : alistLookup ps.reverse n with
    | some v => rfl
    | none =>
      simp only [alistLookup]
      rw [alistLookup_objInsert]
      by_cases hp : p.1 = n
      · rw [if_pos hp, if_pos hp.symm]
      · rw [if_neg hp, if_neg (fun hc => hp hc.symm)]

theorem insertPairs_append {α : Type} (l1 l2 : List (String × α)) :
    ∀ m, insertPairs m (l1 ++ l2) = insertPairs (insertPairs m l1) l2 := by
  induction l1 with
  | nil =>
    intro m
    simp [insertPairs]
  | cons p l1 ih =>
    intro m
    simp [insertPairs, ih]

theorem insertFragments_eq_insertPairs (defs : List DefinitionNode) :
    ∀ m, insertFragments m defs = insertPairs m (fragmentPairsOf defs) := by
  induction defs with
  | nil =>
    intro m
    rfl
  | cons d ds ih =>
    intro m
    cases d with
    | operationDefinition name sp => simp [insertFragments, fragmentPairsOf, ih]
    | fragmentDefinition n sp => simp [insertFragments, fragmentPairsOf, insertPairs, ih]
    | directiveDefinition n => simp [insertFragments, fragmentPairsOf, ih]
    | otherDefinition t => simp [insertFragments, fragmentPairsOf, ih]

theorem fragmentsLoop_eq_insertPairs (docs : List DocumentModel) :
    ∀ m, fragmentsLoop m docs = insertPairs m (scannedFragmentPairs docs) := by
  induction docs with
  | nil =>
    intro m
    rfl
  | cons doc docs ih =>
    intro m
    cases hast : doc.ast with
    | none => simp [fragmentsLoop, scannedFragmentPairs, hast, ih]
    | some defs =>
      simp [fragmentsLoop, scannedFragmentPairs, hast, insertPairs_append,
        insertFragments_eq_insertPairs, ih]

theorem insertOperations_ok_eq (defs : List DefinitionNode) :
    ∀ m m2, insertOperations m defs = Except.ok m2 →
      m2 = insertPairs m (operationPairsOf defs) := by
  induction defs with
  | nil =>
    intro m m2 h
    cases h
    rfl
  | cons d ds ih =>
    intro m m2 h
    cases d with
    | operationDefinition name sp =>
      cases name with
      | none => simp [insertOperations] at h
      | some n =>
        simp only [insertOperations] at h
        simp only [operationPairsOf, insertPairs]
        exact ih _ _ h
    | fragmentDefinition n sp =>
      simp only [insertOperations] at h
      simp only [operationPairsOf]
      exact ih _ _ h
    | directiveDefinition n =>
      simp only [insertOperations] at h
      simp only [operationPairsOf]
      exact ih _ _ h
    | otherDefinition t =>
      simp only [insertOperations] at h
      simp only [operationPairsOf]
      exact ih _ _ h

theorem operationsLoop_ok_eq (docs : List DocumentModel) :
    ∀ m m2, operationsLoop m docs = Except.ok m2 →
      m2 = insertPairs m (scannedOperationPairs docs) := by
  induction docs with
  | nil =>
    intro m m2 h
    cases h
    rfl
  | cons doc docs ih =>
    intro m m2 h
    cases hast : doc.ast with
    | none =>
      simp only [operationsLoop, hast] at h
      simpa [scannedOperationPairs, hast] using ih _ _ h
    | some defs =>
      simp only [operationsLoop, hast] at h
      cases hio : insertOperations m defs with
      | error e => rw [hio] at h; simp at h
      | ok mi =>
        rw [hio] at h
        have h2 := ih _ _ h
        rw [h2, insertOperations_ok_eq defs m mi hio]
        simp [scannedOperationPairs, hast, insertPairs_append]

theorem insertOperations_error_shape (defs : List DefinitionNode) :
    ∀ m e, insertOperations m defs = Except.error e →
      e.message = "Apollo does not support anonymous operations" ∧
      ∃ sp, e.nodes = [DefinitionNode.operationDefinition none sp] ∧
        DefinitionNode.operationDefinition none sp ∈ defs := by
  induction defs with
  | nil =>
    intro m e h
    simp [insertOperations] at h
  | cons d ds ih =>
    intro m e h
    cases d with
    | operationDefinition name sp =>
      cases name with
      | none =>
        simp only [insertOperations] at h
        cases h
        exact ⟨rfl, sp, rfl, List.mem_cons_self _ _⟩
      | some n =>
        simp only [insertOperations] at h
        obtain ⟨h1, sp2, h2, h3⟩ := ih _ _ h
        exact ⟨h1, sp2, h2, List.mem_cons_of_mem _ h3⟩
    | fragmentDefinition n sp =>
      simp only [insertOperations] at h
      obtain ⟨h1, sp2, h2, h3⟩ := ih _ _ h
      exact ⟨h1, sp2, h2, List.mem_cons_of_mem _ h3⟩
    | directiveDefinition n =>
      simp only [insertOperations] at h
      obtain ⟨h1, sp2, h2, h3⟩ := ih _ _ h
      exact ⟨h1, sp2, h2, List.mem_cons_of_mem _ h3⟩
    | otherDefinition t =>
      simp only [insertOperations] at h
      obtain ⟨h1, sp2, h2, h3⟩ := ih _ _ h
      exact ⟨h1, sp2, h2, List.mem_cons_of_mem _ h3⟩

theorem insertOperations_error_of_anon (defs : List DefinitionNode) :
    ∀ m sp, DefinitionNode.operationDefinition none sp ∈ defs →
      ∃ e, insertOperations m defs = Except.error e := by
  induction defs with
  | nil =>
    intro m sp h
    simp at h
  | cons d ds ih =>
    intro m sp h
    cases d with
    | operationDefinition name sp2 =>
      cases name with
      | none =>
        exact ⟨anonymousOperationError (DefinitionNode.operationDefinition none sp2), rfl⟩
      | some n =>
        rcases List.mem_cons.mp h with hh | hh
        · simp at hh
        · obtain ⟨e, he⟩ :=
            ih (objInsert m n (DefinitionNode.operationDefinition (some n) sp2)) sp hh
          exact ⟨e, by simp [insertOperations, he]⟩
    | fragmentDefinition n sp2 =>
      rcases List.mem_cons.mp h with hh | hh
      · simp at hh
      · obtain ⟨e, he⟩ := ih m sp hh
        exact ⟨e, by simp [insertOperations, he]⟩
    | directiveDefinition n =>
      rcases List.mem_cons.mp h with hh | hh
      · simp at hh
      · obtain ⟨e, he⟩ := ih m sp hh
        exact ⟨e, by simp [insertOperations, he]⟩
    | otherDefinition t =>
      rcases List.mem_cons.mp h with hh | hh
      · simp at hh
      · obtain ⟨e, he⟩ := ih m sp hh
        exact ⟨e, by simp [insertOperations, he]⟩

theorem operationsLoop_error_shape (docs : List DocumentModel) :
    ∀ m e, operationsLoop m docs = Except.error e →
      e.message = "Apollo does not support anonymous operations" ∧
      ∃ sp, e.nodes = [DefinitionNode.operationDefinition none sp] ∧
        ∃ doc, doc ∈ docs ∧ ∃ defs, doc.ast = some defs ∧
          DefinitionNode.operationDefinition none sp ∈ defs := by
  induction docs with
  | nil =>
    intro m e h
    simp [operationsLoop] at h
  | cons doc docs ih =>
    intro m e h
    cases hast : doc.ast with
    | none =>
      simp only [operationsLoop, hast] at h
      obtain ⟨h1, sp, h2, doc2, h3, defs2, h4, h5⟩ := ih _ _ h
      exact ⟨h1, sp, h2, doc2, List.mem_cons_of_mem _ h3, defs2, h4, h5⟩
    | some defs =>
      simp only [operationsLoop, hast] at h
      cases hio : insertOperations m defs with
      | ok mi =>
        rw [hio] at h
        obtain ⟨h1, sp, h2, doc2, h3, defs2, h4, h5⟩ := ih _ _ h
        exact ⟨h1, sp, h2, doc2, List.mem_cons_of_mem _ h3, defs2, h4, h5⟩
      | error e0 =>
        rw [hio] at h
        injection h with h
        subst h
        obtain ⟨h1, sp, h2, h3⟩ := insertOperations_error_shape defs m e0 hio
        exact ⟨h1, sp, h2, doc, List.mem_cons_self _ _, defs, hast, h3⟩

theorem operationsLoop_error_of_anon (docs : List DocumentModel) :
    ∀ m, (∃ doc, doc ∈ docs ∧ ∃ defs, doc.ast = some defs ∧
        ∃ sp, DefinitionNode.operationDefinition none sp ∈ defs) →
      ∃ e, operationsLoop m docs = Except.error e := by
  induction docs with
  | nil =>
    intro m h
    obtain ⟨doc, hmem, _⟩ := h
    simp at hmem
  | cons doc docs ih =>
    intro m h
    obtain ⟨doc0, hmem, defs0, hast0, sp0, hsp0⟩ := h
    rcases List.mem_cons.mp hmem with hh | hh
    · subst hh
      obtain ⟨e, he⟩ := insertOperations_error_of_anon defs0 m sp0 hsp0
      exact ⟨e, by simp [operationsLoop, hast0, he]⟩
    · cases hast : doc.ast with
      | none =>
        obtain ⟨e, he⟩ := ih m ⟨doc0, hh, defs0, hast0, sp0, hsp0⟩
        exact ⟨e, by simp [operationsLoop, hast, he]⟩
      | some defs =>
        cases hio : insertOperations m defs with
        | error e => exact ⟨e, by simp [operationsLoop, hast, hio]⟩
        | ok mi =>
          obtain ⟨e, he⟩ := ih mi ⟨doc0, hh, defs0, hast0, sp0, hsp0⟩
          exact ⟨e, by simp [operationsLoop, hast, hio, he]⟩

theorem insertOperations_ok_of_no_anon (defs : List DefinitionNode) :
    ∀ m, (∀ d ∈ defs, isAnonymousOperation d = false) →
      ∃ m2, insertOperations m defs = Except.ok m2 := by
  induction defs with
  | nil =>
    intro m _
    exact ⟨m, rfl⟩
  | cons d ds ih =>
    intro m h
    cases d with
    | operationDefinition name sp =>
      cases name with
      | none =>
        have := h _ (List.mem_cons_self _ _)
        simp [isAnonymousOperation] at this
      | some n =>
        obtain ⟨m2, h2⟩ := ih (objInsert m n (DefinitionNode.operationDefinition (some n) sp))
          (fun d hd => h d (List.mem_cons_of_mem _ hd))
        exact ⟨m2, by simp [insertOperations, h2]⟩
    | fragmentDefinition n sp =>
      obtain ⟨m2, h2⟩ := ih m (fun d hd => h d (List.mem_cons_of_mem _ hd))
      exact ⟨m2, by simp [insertOperations, h2]⟩
    | directiveDefinition n =>
      obtain ⟨m2, h2⟩ := ih m (fun d hd => h d (List.mem_cons_of_mem _ hd))
      exact ⟨m2, by simp [insertOperations, h2]⟩
    | otherDefinition t =>
      obtain ⟨m2, h2⟩ := ih m (fun d hd => h d (List.mem_cons_of_mem _ hd))
      exact ⟨m2, by simp [insertOperations, h2]⟩

theorem containsAnonymousOperation_cons (doc : DocumentModel) (docs : List DocumentModel) :
    containsAnonymousOperation (doc :: docs) =
      ((doc.ast.getD []).any isAnonymousOperation || containsAnonymousOperation docs) := by
  simp [containsAnonymousOperation]

theorem operationsLoop_ok_of_no_anon (docs : List DocumentModel) :
    ∀ m, containsAnonymousOperation docs = false →
      ∃ m2, operationsLoop m docs = Except.ok m2 := by
  induction docs with
  | nil =>
    intro m _
    exact ⟨m, rfl⟩
  | cons doc docs ih =>
    intro m h
    rw [containsAnonymousOperation_cons, Bool.or_eq_false_iff] at h
    cases hast : doc.ast with
    | none =>
      obtain ⟨m2, h2⟩ := ih m h.2
      exact ⟨m2, by simp [operationsLoop, hast, h2]⟩
    | some defs =>
      have hno : ∀ d ∈ defs, isAnonymousOperation d = false := by
        have h1 := h.1
        rw [hast] at h1
        simp only [Option.getD_some, List.any_eq_false] at h1
        intro d hd
        exact Bool.eq_false_iff.mpr (h1 d hd)
      obtain ⟨mi, hio⟩ := insertOperations_ok_of_no_anon defs m hno
      obtain ⟨m2, h2⟩ := ih mi h.2
      exact ⟨m2, by simp [operationsLoop, hast, hio, h2]⟩

theorem containsAnonymousOperation_iff (docs : List DocumentModel) :
    containsAnonymousOperation docs = true ↔
      ∃ doc, doc ∈ docs ∧ ∃ defs, doc.ast = some defs ∧
        ∃ sp, DefinitionNode.operationDefinition none sp ∈ defs := by
  simp only [containsAnonymousOperation, List.any_eq_true]
  constructor
  · rintro ⟨doc, hdoc, d, hd, hanon⟩
    cases hast : doc.ast with
    | none =>
      rw [hast] at hd
      simp at hd
    | some defs =>
      rw [hast] at hd
      simp only [Option.getD_some] at hd
      cases d with
      | operationDefinition name sp =>
        cases name with
        | none => exact ⟨doc, hdoc, defs, hast, sp, hd⟩
        | some n => simp [isAnonymousOperation] at hanon
      | fragmentDefinition n sp => simp [isAnonymousOperation] at hanon
      | directiveDefinition n => simp [isAnonymousOperation] at hanon
      | otherDefinition t => simp [isAnonymousOperation] at hanon
  · rintro ⟨doc, hdoc, defs, hast, sp, hsp⟩
    refine ⟨doc, hdoc, DefinitionNode.operationDefinition none sp, ?_, rfl⟩
    rw [hast]
    simpa using hsp

/-- C6: a snapshot containing an anonymous operation definition makes the
`operations` accessor fail with the anonymous-operation error carrying an
anonymous operation node of the snapshot, regardless of the other
definitions present: the whole registry-build call errors and no
operations map is returned. -/
theorem operations_fails_on_anonymous_operation (documents : List DocumentModel)
    (h : containsAnonymousOperation documents = true) :
    ∃ e, operations documents = Except.error e ∧
      e.message = "Apollo does not support anonymous operations" ∧
      ∃ sp, e.nodes = [DefinitionNode.operationDefinition none sp] ∧
        ∃ doc, doc ∈ documents ∧ ∃ defs, doc.ast = some defs ∧
          DefinitionNode.operationDefinition none sp ∈ defs := by
  obtain ⟨e, he⟩ :=
    operationsLoop_error_of_anon documents [] ((containsAnonymousOperation_iff documents).mp h)
  obtain ⟨h1, sp, h2, h3⟩ := operationsLoop_error_shape documents [] e he
  exact ⟨e, he, h1, sp, h2, h3⟩

/-- Witness for C6: a document holding a validly named operation and an
anonymous operation makes `operations` fail with the anonymous node. -/
theorem operations_fails_on_anonymous_operation_witness :
    ∃ e, operations [DocumentModel.mk (some [DefinitionNode.operationDefinition (some "Valid") [],
        DefinitionNode.operationDefinition none []])] = Except.error e ∧
      e.message = "Apollo does not support anonymous operations" ∧
      ∃ sp, e.nodes = [DefinitionNode.operationDefinition none sp] ∧
        ∃ doc, doc ∈ [DocumentModel.mk (some [DefinitionNode.operationDefinition (some "Valid") [],
            DefinitionNode.operationDefinition none []])] ∧
          ∃ defs, doc.ast = some defs ∧
            DefinitionNode.operationDefinition none sp ∈ defs :=
  operations_fails_on_anonymous_operation
    [DocumentModel.mk (some [DefinitionNode.operationDefinition (some "Valid") [],
      DefinitionNode.operationDefinition none []])] (by decide)

/-- C8: the registry accessors are last-writer-wins in document scan
order: looking a name up in the `fragments` (or successful `operations`)
map yields the last-scanned definition of that name, and duplicates alone
never make `operations` fail (only anonymity does). -/
theorem registries_last_writer_wins (documents : List DocumentModel) (n : String) :
    alistLookup (fragments documents) n =
      alistLookup (scannedFragmentPairs documents).reverse n ∧
    (∀ m, operations documents = Except.ok m →
      alistLookup m n = alistLookup (scannedOperationPairs documents).reverse n) ∧
    (containsAnonymousOperation documents = false →
      ∃ m, operations documents = Except.ok m) := by
  refine ⟨?_, ?_, ?_⟩
  · rw [fragments, fragmentsLoop_eq_insertPairs, alistLookup_insertPairs]
    cases h : alistLookup (scannedFragmentPairs documents).reverse n with
    | some v => rfl
    | none => rfl
  · intro m hm
    rw [operations] at hm
    rw [operationsLoop_ok_eq documents [] m hm, alistLookup_insertPairs]
    cases h : alistLookup (scannedOperationPairs documents).reverse n with
    | some v => rfl
    | none => rfl
  · intro h
    exact operationsLoop_ok_of_no_anon documents [] h

/-- Witness for C8: two files both defining fragment `F` and operation
`Q`; `operations` succeeds despite the duplicates, and the fragment
registry maps `F` to the second (last-scanned) definition. -/
theorem registries_last_writer_wins_witness :
    (∃ m, operations demoDualDocs = Except.ok m) ∧
    alistLookup (fragments demoDualDocs) "F" =
      some (DefinitionNode.fragmentDefinition "F" ["b"]) :=
  ⟨(registries_last_writer_wins demoDualDocs "F").2.2 (by decide),
    (registries_last_writer_wins demoDualDocs "F").1.trans (by decide)⟩

theorem insertFragments_filter (defs : List DefinitionNode) :
    ∀ m, insertFragments m (defs.filter isFragmentDefinitionNode) = insertFragments m defs := by
  induction defs with
  | nil =>
    intro m
    rfl
  | cons d ds ih =>
    intro m
    cases d with
    | operationDefinition name sp =>
      simp [List.filter_cons, isFragmentDefinitionNode, insertFragments, ih]
    | fragmentDefinition n sp =>
      simp [List.filter_cons, isFragmentDefinitionNode, insertFragments, ih]
    | directiveDefinition n =>
      simp [List.filter_cons, isFragmentDefinitionNode, insertFragments, ih]
    | otherDefinition t =>
      simp [List.filter_cons, isFragmentDefinitionNode, insertFragments, ih]

theorem fragmentsLoop_restrict (docs : List DocumentModel) :
    ∀ m, fragmentsLoop m (restrictToFragments docs) = fragmentsLoop m docs := by
  induction docs with
  | nil =>
    intro m
    rfl
  | cons doc docs ih =>
    intro m
    cases hast : doc.ast with
    | none =>
      simp [restrictToFragments, List.filterMap_cons, hast, fragmentsLoop, ih]
      rw [← restrictToFragments, ih]
    | some defs =>
      simp only [restrictToFragments, List.filterMap_cons, hast]
      rw [← restrictToFragments]
      simp only [fragmentsLoop, hast]
      rw [insertFragments_filter, ih]

theorem filter_fragments_no_anon (defs : List DefinitionNode) :
    (defs.filter isFragmentDefinitionNode).any isAnonymousOperation = false := by
  rw [List.any_eq_false]
  intro d hd
  have hfrag := List.of_mem_filter hd
  cases d with
  | operationDefinition name sp => simp [isFragmentDefinitionNode] at hfrag
  | fragmentDefinition n sp => simp [isAnonymousOperation]
  | directiveDefinition n => simp [isFragmentDefinitionNode] at hfrag
  | otherDefinition t => simp [isFragmentDefinitionNode] at hfrag

theorem containsAnonymousOperation_restrict (docs : List DocumentModel) :
    containsAnonymousOperation (restrictToFragments docs) = false := by
  induction docs with
  | nil => rfl
  | cons doc docs ih =>
    cases hast : doc.ast with
    | none =>
      simp only [restrictToFragments, List.filterMap_cons, hast]
      rw [← restrictToFragments]
      exact ih
    | some defs =>
      simp only [restrictToFragments, List.filterMap_cons, hast]
      rw [← restrictToFragments, containsAnonymousOperation_cons, Bool.or_eq_false_iff]
      exact ⟨filter_fragments_no_anon defs, ih⟩

/-- C10: the `fragments` accessor is total and reads only the fragment
definitions of documents with a present AST: its result is unchanged when
the snapshot is restricted to exactly those (dropping unparsed documents
and every non-fragment definition); the restricted snapshot contains no
anonymous operations, so even `operations` succeeds on it — in particular
anonymous operations in the original snapshot cannot affect `fragments`. -/
theorem fragments_total_ignores_non_fragments (documents : List DocumentModel) :
    fragments documents = fragments (restrictToFragments documents) ∧
    containsAnonymousOperation (restrictToFragments documents) = false ∧
    ∃ m, operations (restrictToFragments documents) = Except.ok m :=
  ⟨(fragmentsLoop_restrict documents []).symm,
    containsAnonymousOperation_restrict documents,
    operationsLoop_ok_of_no_anon _ [] (containsAnonymousOperation_restrict documents)⟩

theorem searchStep_all (frags : List (String × DefinitionNode)) (ns : List String) :
    ∀ st : SearchState, ∃ t, (searchStep frags ns st).all = st.all ++ t := by
  induction ns with
  | nil =>
    intro st
    exact ⟨[], by simp [searchStep]⟩
  | cons n ns ih =>
    intro st
    by_cases hseen : n ∈ st.seen
    · have hstep : searchStep frags (n :: ns) st = searchStep frags ns st := by
        simp [searchStep, hseen]
      rw [hstep]
      exact ih st
    · cases hlook : alistLookup frags n with
      | none =>
        have hstep : searchStep frags (n :: ns) st = searchStep frags ns st := by
          simp [searchStep, hseen, hlook]
        rw [hstep]
        exact ih st
      | some fragment =>
        have hstep : searchStep frags (n :: ns) st =
            searchStep frags ns
              ⟨n :: st.seen, st.queue ++ [fragment], st.all ++ [fragment]⟩ := by
          simp [searchStep, hseen, hlook]
        rw [hstep]
        obtain ⟨t, ht⟩ := ih ⟨n :: st.seen, st.queue ++ [fragment], st.all ++ [fragment]⟩
        refine ⟨fragment :: t, ?_⟩
        rw [ht]
        simp

theorem searchLoop_all (frags : List (String × DefinitionNode)) :
    ∀ queue seen all, ∃ t, searchLoop frags queue seen all = all ++ t := by
  intro queue seen all
  induction queue, seen, all using searchLoop.induct frags with
  | case1 seen all =>
    exact ⟨[], by rw [searchLoop.eq_1]; simp⟩
  | case2 seen all cur rest ih =>
    obtain ⟨t1, ht1⟩ := ih
    obtain ⟨t0, ht0⟩ := searchStep_all frags (spreadsOf cur) ⟨seen, rest, all⟩
    refine ⟨t0 ++ t1, ?_⟩
    rw [searchLoop.eq_2, ht1, ht0]
    simp

theorem mem_keys_of_alistLookup {α : Type} :
    ∀ (l : List (String × α)) (k : String) (v : α),
      alistLookup l k = some v → k ∈ l.map Prod.fst := by
  intro l
  induction l with
  | nil =>
    intro k v h
    simp [alistLookup] at h
  | cons p rest ih =>
    intro k v h
    by_cases hp : p.1 = k
    · simp [List.map_cons, List.mem_cons, hp]
    · simp only [alistLookup, if_neg hp] at h
      simp [List.map_cons, List.mem_cons, ih k v h]

theorem unseenCount_cons_of_key (frags : List (String × DefinitionNode)) (n : String)
    (seen : List String) (hkey : n ∈ frags.map Prod.fst) (hseen : n ∉ seen) :
    unseenCount frags (n :: seen) + 1 = unseenCount frags seen := by
  have hkeyMem : n ∈ (frags.map Prod.fst).toFinset := List.mem_toFinset.mpr hkey
  have hfiltermem :
      n ∈ ((frags.map Prod.fst).toFinset).filter (fun fragName => fragName ∉ seen) :=
    Finset.mem_filter.mpr ⟨hkeyMem, hseen⟩
  have herase :
      ((frags.map Prod.fst).toFinset).filter (fun fragName => fragName ∉ n :: seen) =
        (((frags.map Prod.fst).toFinset).filter (fun fragName => fragName ∉ seen)).erase n := by
    ext x
    simp only [Finset.mem_filter, Finset.mem_erase, List.mem_cons]
    tauto
  have hcard : unseenCount frags (n :: seen) = unseenCount frags seen - 1 := by
    simp only [unseenCount, herase]
    exact Finset.card_erase_of_mem hfiltermem
  have hpos : 0 < unseenCount frags seen := Finset.card_pos.mpr ⟨n, hfiltermem⟩
  omega

theorem discoverSpreads_seen (frags : List (String × DefinitionNode)) (ns : List String) :
    ∀ seen : List String,
      (∀ x, x ∈ seen → x ∈ (discoverSpreads frags ns seen).2) ∧
      unseenCount frags (discoverSpreads frags ns seen).2 ≤ unseenCount frags seen ∧
      ((discoverSpreads frags ns seen).1 ≠ [] →
        unseenCount frags (discoverSpreads frags ns seen).2 < unseenCount frags seen) := by
  induction ns with
  | nil =>
    intro seen
    exact ⟨fun x h => h, Nat.le_refl _, fun hc => absurd rfl hc⟩
  | cons n ns ih =>
    intro seen
    by_cases hseen : n ∈ seen
    · simpa [discoverSpreads, hseen] using ih seen
    · cases hlook : alistLookup frags n with
      | none => simpa [discoverSpreads, hseen, hlook] using ih seen
      | some fragment =>
        have hkey : n ∈ frags.map Prod.fst := mem_keys_of_alistLookup frags n fragment hlook
        have hcount := unseenCount_cons_of_key frags n seen hkey hseen
        obtain ⟨ih1, ih2, _⟩ := ih (n :: seen)
        have hr2 : (discoverSpreads frags (n :: ns) seen).2 =
            (discoverSpreads frags ns (n :: seen)).2 := by
          simp [discoverSpreads, hseen, hlook]
        refine ⟨?_, ?_, ?_⟩
        · intro x hx
          rw [hr2]
          exact ih1 x (List.mem_cons_of_mem _ hx)
        · rw [hr2]
          omega
        · intro _
          rw [hr2]
          omega

theorem discoverLevel_seen (frags : List (String × DefinitionNode))
    (level : List DefinitionNode) :
    ∀ seen : List String,
      (∀ x, x ∈ seen → x ∈ (discoverLevel frags level seen).2) ∧
      unseenCount frags (discoverLevel frags level seen).2 ≤ unseenCount frags seen ∧
      ((discoverLevel frags level seen).1 ≠ [] →
        unseenCount frags (discoverLevel frags level seen).2 < unseenCount frags seen) := by
  induction level with
  | nil =>
    intro seen
    exact ⟨fun x h => h, Nat.le_refl _, fun hc => absurd rfl hc⟩
  | cons d ds ih =>
    intro seen
    have hS := discoverSpreads_seen frags (spreadsOf d) seen
    obtain ⟨ihd1, ihd2, ihd3⟩ := ih (discoverSpreads frags (spreadsOf d) seen).2
    have h1 : (discoverLevel frags (d :: ds) seen).1 =
        (discoverSpreads frags (spreadsOf d) seen).1 ++
          (discoverLevel frags ds (discoverSpreads frags (spreadsOf d) seen).2).1 := by
      simp [discoverLevel]
    have h2 : (discoverLevel frags (d :: ds) seen).2 =
        (discoverLevel frags ds (discoverSpreads frags (spreadsOf d) seen).2).2 := by
      simp [discoverLevel]
    refine ⟨?_, ?_, ?_⟩
    · intro x hx
      rw [h2]
      exact ihd1 x (hS.1 x hx)
    · rw [h2]
      exact Nat.le_trans ihd2 hS.2.1
    · intro hne
      rw [h1] at hne
      by_cases ha : (discoverSpreads frags (spreadsOf d) seen).1 = []
      · have hb : (discoverLevel frags ds (discoverSpreads frags (spreadsOf d) seen).2).1 ≠ [] := by
          intro hb
          exact hne (by rw [ha, hb]; rfl)
        rw [h2]
        exact Nat.lt_of_lt_of_le (ihd3 hb) hS.2.1
      · rw [h2]
        exact Nat.lt_of_le_of_lt ihd2 (hS.2.2 ha)

theorem searchStep_eq_discoverSpreads (frags : List (String × DefinitionNode))
    (ns : List String) :
    ∀ (seen : List String) (queue all : List DefinitionNode),
      searchStep frags ns ⟨seen, queue, all⟩ =
        ⟨(discoverSpreads frags ns seen).2,
          queue ++ (discoverSpreads frags ns seen).1,
          all ++ (discoverSpreads frags ns seen).1⟩ := by
  induction ns with
  | nil =>
    intro seen queue all
    simp [searchStep, discoverSpreads]
  | cons n ns ih =>
    intro seen queue all
    by_cases hseen : n ∈ seen
    · simp [searchStep, discoverSpreads, hseen, ih]
    · cases hlook : alistLookup frags n with
      | none => simp [searchStep, discoverSpreads, hseen, hlook, ih]
      | some fragment =>
        have hstep : searchStep frags (n :: ns) ⟨seen, queue, all⟩ =
            searchStep frags ns ⟨n :: seen, queue ++ [fragment], all ++ [fragment]⟩ := by
          simp [searchStep, hseen, hlook]
        rw [hstep, ih]
        simp [discoverSpreads, hseen, hlook]

theorem searchLoop_level_decompose (frags : List (String × DefinitionNode)) :
    ∀ (level next : List DefinitionNode) (seen : List String) (all : List DefinitionNode),
      searchLoop frags (level ++ next) seen all =
        searchLoop frags (next ++ (discoverLevel frags level seen).1)
          (discoverLevel frags level seen).2
          (all ++ (discoverLevel frags level seen).1) := by
  intro level
  induction level with
  | nil =>
    intro next seen all
    simp [discoverLevel]
  | cons d ds ih =>
    intro next seen all
    rw [List.cons_append, searchLoop.eq_2,
      searchStep_eq_discoverSpreads frags (spreadsOf d) seen (ds ++ next) all]
    have hassoc : (ds ++ next) ++ (discoverSpreads frags (spreadsOf d) seen).1 =
        ds ++ (next ++ (discoverSpreads frags (spreadsOf d) seen).1) :=
      List.append_assoc _ _ _
    simp only [hassoc]
    rw [ih (next ++ (discoverSpreads frags (spreadsOf d) seen).1)
      (discoverSpreads frags (spreadsOf d) seen).2
      (all ++ (discoverSpreads frags (spreadsOf d) seen).1)]
    simp [discoverLevel, List.append_assoc]

theorem bfsLevels_nil (frags : List (String × DefinitionNode)) :
    ∀ (fuel : Nat) (seen : List String), bfsLevels frags fuel [] seen = [] := by
  intro fuel
  induction fuel with
  | zero =>
    intro seen
    rfl
  | succ fuel ih =>
    intro seen
    simp [bfsLevels, discoverLevel, ih]

theorem searchLoop_eq_bfsLevels (frags : List (String × DefinitionNode)) :
    ∀ (fuel : Nat) (level : List DefinitionNode) (seen : List String)
      (all : List DefinitionNode),
      unseenCount frags seen < fuel →
      searchLoop frags level seen all = all ++ bfsLevels frags fuel level seen := by
  intro fuel
  induction fuel with
  | zero =>
    intro level seen all h
    exact absurd h (Nat.not_lt_zero _)
  | succ fuel ih =>
    intro level seen all h
    have hA := searchLoop_level_decompose frags level [] seen all
    rw [List.append_nil, List.nil_append] at hA
    by_cases hr : (discoverLevel frags level seen).1 = []
    · rw [hA, hr, searchLoop.eq_1]
      simp [bfsLevels, hr, bfsLevels_nil]
    · have hlt : unseenCount frags (discoverLevel frags level seen).2 < fuel := by
        have := (discoverLevel_seen frags level seen).2.2 hr
        omega
      rw [hA, ih (discoverLevel frags level seen).1 (discoverLevel frags level seen).2
        (all ++ (discoverLevel frags level seen).1) hlt]
      simp [bfsLevels, List.append_assoc]

/-- C3: the closure computation is a function of the registry and the
operation (hence deterministic); it equals the breadth-first closure —
the operation first, then the reachable fragments in first-discovered
breadth-first order, level by level; in particular the result always
starts with the operation itself, and for an operation containing no
fragment spreads it is exactly the one-element sequence holding that
operation. -/
theorem getOperationWithFragments_ordering (frags : List (String × DefinitionNode))
    (operationDef : DefinitionNode) :
    getOperationWithFragments frags operationDef = breadthFirstClosure frags operationDef ∧
    (∃ t, getOperationWithFragments frags operationDef = operationDef :: t) ∧
    (spreadsOf operationDef = [] →
      getOperationWithFragments frags operationDef = [operationDef]) := by
  have hfuel : unseenCount frags [] < frags.length + 1 := by
    have h1 : unseenCount frags [] ≤ (frags.map Prod.fst).toFinset.card :=
      Finset.card_filter_le _ _
    have h2 : (frags.map Prod.fst).toFinset.card ≤ (frags.map Prod.fst).length :=
      List.toFinset_card_le _
    rw [List.length_map] at h2
    omega
  have hmain : getOperationWithFragments frags operationDef =
      breadthFirstClosure frags operationDef := by
    rw [getOperationWithFragments,
      searchLoop_eq_bfsLevels frags (frags.length + 1) [operationDef] [] [operationDef] hfuel]
    rfl
  refine ⟨hmain, ⟨bfsLevels frags (frags.length + 1) [operationDef] [], by rw [hmain]; rfl⟩, ?_⟩
  intro h
  rw [getOperationWithFragments, searchLoop.eq_2, h]
  simp only [searchStep]
  rw [searchLoop.eq_1]

/-- Witness for C3: an operation with no fragment spreads, against the
empty registry, closes to exactly itself. -/
theorem getOperationWithFragments_ordering_witness :
    getOperationWithFragments [] (DefinitionNode.operationDefinition (some "Q") []) =
      [DefinitionNode.operationDefinition (some "Q") []] :=
  (getOperationWithFragments_ordering []
    (DefinitionNode.operationDefinition (some "Q") [])).2.2 rfl

/-- C2: on the cyclic registry F1 → F2 → F1 with the operation spreading
F1, the closure computation terminates (it is a total function) with
result [O, F1, F2], so each of O, F1 and F2 occurs exactly once: the
seen-set prevents any definition from being appended twice. -/
theorem getOperationWithFragments_cycle (opName : Option String) (n1 n2 : String)
    (h : n1 ≠ n2) :
    getOperationWithFragments
        [(n1, DefinitionNode.fragmentDefinition n1 [n2]),
          (n2, DefinitionNode.fragmentDefinition n2 [n1])]
        (DefinitionNode.operationDefinition opName [n1]) =
      [DefinitionNode.operationDefinition opName [n1],
        DefinitionNode.fragmentDefinition n1 [n2],
        DefinitionNode.fragmentDefinition n2 [n1]] ∧
    ([DefinitionNode.operationDefinition opName [n1],
        DefinitionNode.fragmentDefinition n1 [n2],
        DefinitionNode.fragmentDefinition n2 [n1]].count
      (DefinitionNode.operationDefinition opName [n1]) = 1 ∧
      [DefinitionNode.operationDefinition opName [n1],
        DefinitionNode.fragmentDefinition n1 [n2],
        DefinitionNode.fragmentDefinition n2 [n1]].count
        (DefinitionNode.fragmentDefinition n1 [n2]) = 1 ∧
      [DefinitionNode.operationDefinition opName [n1],
        DefinitionNode.fragmentDefinition n1 [n2],
        DefinitionNode.fragmentDefinition n2 [n1]].count
        (DefinitionNode.fragmentDefinition n2 [n1]) = 1) := by
  have h2 : n2 ≠ n1 := fun hc => h hc.symm
  constructor
  · simp [getOperationWithFragments, searchLoop, searchStep, spreadsOf, alistLookup, h, h2]
  · refine ⟨?_, ?_, ?_⟩ <;> simp [List.count_cons, h, h2]

/-- Witness for C2 at concrete names: operation Q spreading F1, with
F1 spreading F2 and F2 spreading F1. -/
theorem getOperationWithFragments_cycle_witness :
    getOperationWithFragments
        [("F1", DefinitionNode.fragmentDefinition "F1" ["F2"]),
          ("F2", DefinitionNode.fragmentDefinition "F2" ["F1"])]
        (DefinitionNode.operationDefinition (some "Q") ["F1"]) =
      [DefinitionNode.operationDefinition (some "Q") ["F1"],
        DefinitionNode.fragmentDefinition "F1" ["F2"],
        DefinitionNode.fragmentDefinition "F2" ["F1"]] :=
  (getOperationWithFragments_cycle (some "Q") "F1" "F2" (by decide)).1

/-- C4: when neither the client-only nor the client-schema directive list
is configured (absent or empty), the service projection returns the
merged operations-and-fragments map unchanged, for every behaviour of the
filtering and typename-injection utilities. -/
theorem mergedForService_identity_when_unconfigured
    (clientOnlyDirectives clientSchemaDirectives : Option (List String)) (addTypename : Bool)
    (removeDirectivesFn removeAnnotatedFieldsFn :
      DocumentNodeModel → Option (List String) → DocumentNodeModel)
    (withTypenameFn : DocumentNodeModel → DocumentNodeModel)
    (current : List (String × DocumentNodeModel))
    (hco : emptyDirectiveConfig clientOnlyDirectives = true)
    (hcs : emptyDirectiveConfig clientSchemaDirectives = true) :
    mergedOperationsAndFragmentsForService clientOnlyDirectives clientSchemaDirectives addTypename
      removeDirectivesFn removeAnnotatedFieldsFn withTypenameFn current = current := by
  simp [mergedOperationsAndFragmentsForService, hco, hcs]

/-- Witness for C4: with an unconfigured and an empty directive list, the
projection is the identity even under filtering utilities that would
destroy every document. -/
theorem mergedForService_identity_when_unconfigured_witness :
    mergedOperationsAndFragmentsForService none (some []) true
      (fun d _ => d) (fun _ _ => DocumentNodeModel.mk []) (fun _ => DocumentNodeModel.mk [])
      [("Q", DocumentNodeModel.mk [some (DefinitionNode.operationDefinition (some "Q") [])])] =
      [("Q", DocumentNodeModel.mk [some (DefinitionNode.operationDefinition (some "Q") [])])] :=
  mergedForService_identity_when_unconfigured none (some []) true
    (fun d _ => d) (fun _ _ => DocumentNodeModel.mk []) (fun _ => DocumentNodeModel.mk [])
    [("Q", DocumentNodeModel.mk [some (DefinitionNode.operationDefinition (some "Q") [])])]
    rfl rfl

theorem projectLoop_not_mem (project : DocumentNodeModel → DocumentNodeModel) (name : String) :
    ∀ current filtered : List (String × DocumentNodeModel),
      name ∉ filtered.map Prod.fst →
      (∀ doc, (name, doc) ∈ current → ((project doc).definitions.filterMap id) = []) →
      name ∉ (projectLoop project filtered current).map Prod.fst := by
  intro current
  induction current with
  | nil =>
    intro filtered hf _
    simpa [projectLoop] using hf
  | cons entry rest ih =>
    intro filtered hf hall
    obtain ⟨opName, doc⟩ := entry
    by_cases hkeep : ((project doc).definitions.filterMap id).length ≠ 0
    · by_cases hn : opName = name
      · subst hn
        have hdoc := hall doc (List.mem_cons_self _ _)
        rw [hdoc] at hkeep
        simp at hkeep
      · simp only [projectLoop, if_pos hkeep]
        apply ih
        · intro hmem
          rcases (mem_map_fst_objInsert filtered opName (project doc) name).mp hmem with hm | hm
          · exact hf hm
          · exact hn hm.symm
        · intro d hd
          exact hall d (List.mem_cons_of_mem _ hd)
    · simp only [projectLoop, if_neg hkeep]
      apply ih
      · exact hf
      · intro d hd
        exact hall d (List.mem_cons_of_mem _ hd)

/-- C5: with the directive filtering configured, an operation whose
projected document retains zero non-null definitions is omitted from the
service projection entirely: its name is absent from the result map. -/
theorem mergedForService_omits_fully_client_operations
    (clientOnlyDirectives clientSchemaDirectives : Option (List String)) (addTypename : Bool)
    (removeDirectivesFn removeAnnotatedFieldsFn :
      DocumentNodeModel → Option (List String) → DocumentNodeModel)
    (withTypenameFn : DocumentNodeModel → DocumentNodeModel)
    (current : List (String × DocumentNodeModel)) (name : String)
    (hgate : (emptyDirectiveConfig clientOnlyDirectives &&
      emptyDirectiveConfig clientSchemaDirectives) = false)
    (hempty : ∀ document, (name, document) ∈ current →
      ((serviceOnlyDocument clientOnlyDirectives clientSchemaDirectives addTypename
        removeDirectivesFn removeAnnotatedFieldsFn withTypenameFn
          document).definitions.filterMap id) = []) :
    name ∉ (mergedOperationsAndFragmentsForService clientOnlyDirectives clientSchemaDirectives
      addTypename removeDirectivesFn removeAnnotatedFieldsFn withTypenameFn current).map
        Prod.fst := by
  have h := projectLoop_not_mem
    (serviceOnlyDocument clientOnlyDirectives clientSchemaDirectives addTypename
      removeDirectivesFn removeAnnotatedFieldsFn withTypenameFn) name current []
    (by simp) hempty
  simpa [mergedOperationsAndFragmentsForService, hgate] using h

/-- Witness for C5: an operation holding one field removed by the
configured client-schema directive filter vanishes from the result. -/
theorem mergedForService_omits_fully_client_operations_witness :
    "Q" ∉ (mergedOperationsAndFragmentsForService none (some ["client"]) false
      (fun d _ => d) (fun _ _ => DocumentNodeModel.mk []) (fun d => d)
      [("Q", DocumentNodeModel.mk
        [some (DefinitionNode.operationDefinition (some "Q") [])])]).map Prod.fst :=
  mergedForService_omits_fully_client_operations none (some ["client"]) false
    (fun d _ => d) (fun _ _ => DocumentNodeModel.mk []) (fun d => d)
    [("Q", DocumentNodeModel.mk [some (DefinitionNode.operationDefinition (some "Q") [])])] "Q"
    rfl (fun _ _ => rfl)

theorem alistLookup_addDiagnostics (set : List (String × List DiagnosticModel))
    (u2 : String) (d : List DiagnosticModel) (u : String) :
    alistLookup (addDiagnostics set u2 d) u =
      if u = u2 then some (lookupDiagnostics set u ++ d) else alistLookup set u := by
  induction set with
  | nil =>
    by_cases h : u2 = u
    · subst h
      simp [addDiagnostics, alistLookup, lookupDiagnostics]
    · have h2 : ¬ u = u2 := fun hc => h hc.symm
      simp [addDiagnostics, alistLookup, lookupDiagnostics, h, h2]
  | cons entry rest ih =>
    by_cases h : entry.1 = u2
    · simp only [addDiagnostics, if_pos h]
      by_cases h2 : entry.1 = u
      · have hu : u = u2 := by rw [← h2, h]
        simp [alistLookup, lookupDiagnostics, h2, hu]
      · have hu : ¬ u = u2 := fun hc => h2 (by rw [h, hc])
        simp [alistLookup, lookupDiagnostics, h2, hu]
    · simp only [addDiagnostics, if_neg h]
      by_cases h2 : entry.1 = u
      · have hu : ¬ u = u2 := fun hc => h (by rw [h2, hc])
        simp [alistLookup, lookupDiagnostics, h2, hu]
      · simp [alistLookup, lookupDiagnostics, h2, ih]

theorem lookupDiagnostics_addDiagnostics (set : List (String × List DiagnosticModel))
    (u2 : String) (d : List DiagnosticModel) (u : String) :
    lookupDiagnostics (addDiagnostics set u2 d) u =
      lookupDiagnostics set u ++ (if u = u2 then d else []) := by
  simp only [lookupDiagnostics, alistLookup_addDiagnostics]
  by_cases h : u = u2
  · simp [h, lookupDiagnostics]
  · simp [h]

theorem lookupDiagnostics_foldl_docs {α : Type} (schema : SchemaModel)
    (collect : SchemaModel → α → List DiagnosticModel) (uri2 : String) :
    ∀ (docsForFile : List α) (set : List (String × List DiagnosticModel)) (u : String),
      lookupDiagnostics
        (docsForFile.foldl (fun s document => addDiagnostics s uri2 (collect schema document))
          set) u =
      lookupDiagnostics set u ++
        (if u = uri2 then (docsForFile.map (collect schema)).flatten else []) := by
  intro docsForFile
  induction docsForFile with
  | nil =>
    intro set u
    simp
  | cons document ds ih =>
    intro set u
    simp only [List.foldl_cons, List.map_cons, List.flatten]
    rw [ih, lookupDiagnostics_addDiagnostics]
    by_cases h : u = uri2
    · simp [h]
    · simp [h]

theorem lookupDiagnostics_collectFileDiagnostics_extends {α : Type} (schema : SchemaModel)
    (collect : SchemaModel → α → List DiagnosticModel) :
    ∀ (files : List (String × List α)) (set : List (String × List DiagnosticModel)) (u : String),
      ∃ t, lookupDiagnostics (collectFileDiagnostics schema collect set files) u =
        lookupDiagnostics set u ++ t := by
  intro files
  induction files with
  | nil =>
    intro set u
    exact ⟨[], by simp [collectFileDiagnostics]⟩
  | cons entry rest ih =>
    intro set u
    obtain ⟨uri1, fdocs1⟩ := entry
    simp only [collectFileDiagnostics]
    obtain ⟨t1, ht1⟩ := ih
      (fdocs1.foldl (fun s document => addDiagnostics s uri1 (collect schema document)) set) u
    rw [ht1, lookupDiagnostics_foldl_docs]
    exact ⟨(if u = uri1 then (fdocs1.map (collect schema)).flatten else []) ++ t1,
      List.append_assoc _ _ _⟩

theorem lookupDiagnostics_collectFileDiagnostics_notmem {α : Type} (schema : SchemaModel)
    (collect : SchemaModel → α → List DiagnosticModel) :
    ∀ (files : List (String × List α)) (set : List (String × List DiagnosticModel)) (u : String),
      u ∉ files.map Prod.fst →
      lookupDiagnostics (collectFileDiagnostics schema collect set files) u =
        lookupDiagnostics set u := by
  intro files
  induction files with
  | nil =>
    intro set u _
    rfl
  | cons entry rest ih =>
    intro set u hu
    obtain ⟨uri1, fdocs1⟩ := entry
    simp only [List.map_cons, List.mem_cons] at hu
    push_neg at hu
    simp only [collectFileDiagnostics]
    rw [ih _ u hu.2, lookupDiagnostics_foldl_docs]
    simp [hu.1]

theorem lookupDiagnostics_collectFileDiagnostics_mem {α : Type} (schema : SchemaModel)
    (collect : SchemaModel → α → List DiagnosticModel) :
    ∀ (files : List (String × List α)) (set : List (String × List DiagnosticModel))
      (u : String) (fdocs : List α),
      (files.map Prod.fst).Nodup → (u, fdocs) ∈ files →
      lookupDiagnostics (collectFileDiagnostics schema collect set files) u =
        lookupDiagnostics set u ++ (fdocs.map (collect schema)).flatten := by
  intro files
  induction files with
  | nil =>
    intro set u fdocs _ hmem
    simp at hmem
  | cons entry rest ih =>
    intro set u fdocs hnd hmem
    obtain ⟨uri1, fdocs1⟩ := entry
    rw [List.map_cons, List.nodup_cons] at hnd
    rcases List.mem_cons.mp hmem with hh | hh
    · cases hh
      simp only [collectFileDiagnostics]
      rw [lookupDiagnostics_collectFileDiagnostics_notmem schema collect rest _ u hnd.1,
        lookupDiagnostics_foldl_docs]
      simp
    · have hne : u ≠ uri1 := by
        intro hc
        subst hc
        exact hnd.1 (List.mem_map.mpr ⟨(u, fdocs), hh, rfl⟩)
      simp only [collectFileDiagnostics]
      rw [ih _ u fdocs hnd.2 hh, lookupDiagnostics_foldl_docs]
      simp [hne]

/-- C7: when composing the client extension onto the service schema fails
with a `GraphQLError` whose source location resolves to a URI, `validate`
does not abort: it produces an outcome whose working schema is the bare
service schema, whose diagnostic set starts, at the error's own source
URI, with the diagnostics converted from that error, whose per-file
callbacks are exactly the diagnostic-set entries, and in which every
file's documents were still validated (each file's entry ends with the
diagnostics collected against the bare service schema). -/
theorem validate_composition_failure_recovers {α : Type}
    (serviceSchema : SchemaModel) (e : GraphQLErrorModel)
    (diagnosticsFromError : GraphQLErrorModel → List DiagnosticModel)
    (collect : SchemaModel → α → List DiagnosticModel)
    (documentsByFile : List (String × List α)) (uri : String)
    (hg : e.isGraphQLError = true) (hu : e.sourceUri = some uri)
    (hnd : (documentsByFile.map Prod.fst).Nodup) :
    ∃ out, validate true (some serviceSchema) (Except.error e) diagnosticsFromError collect
        documentsByFile = some out ∧
      out.schema = serviceSchema ∧
      (∃ t, lookupDiagnostics out.diagnosticSet uri = diagnosticsFromError e ++ t) ∧
      out.onDiagnosticsCalls = out.diagnosticSet ∧
      (∀ u docsForFile, (u, docsForFile) ∈ documentsByFile →
        ∃ p, lookupDiagnostics out.diagnosticSet u =
          p ++ (docsForFile.map (collect serviceSchema)).flatten) := by
  refine ⟨⟨serviceSchema,
      collectFileDiagnostics serviceSchema collect
        (addDiagnostics [] uri (diagnosticsFromError e)) documentsByFile,
      collectFileDiagnostics serviceSchema collect
        (addDiagnostics [] uri (diagnosticsFromError e)) documentsByFile⟩,
    ?_, rfl, ?_, rfl, ?_⟩
  · simp [validate, hg, hu]
  · obtain ⟨t, ht⟩ := lookupDiagnostics_collectFileDiagnostics_extends serviceSchema collect
      documentsByFile (addDiagnostics [] uri (diagnosticsFromError e)) uri
    refine ⟨t, ?_⟩
    rw [ht, lookupDiagnostics_addDiagnostics]
    simp [lookupDiagnostics, alistLookup]
  · intro u docsForFile hmem
    exact ⟨lookupDiagnostics (addDiagnostics [] uri (diagnosticsFromError e)) u,
      lookupDiagnostics_collectFileDiagnostics_mem serviceSchema collect documentsByFile _
        u docsForFile hnd hmem⟩

/-- Witness for C7: a composition error located at `client-schema.graphql`
over one tracked file `a.graphql` holding one document. -/
theorem validate_composition_failure_recovers_witness :
    ∃ out, validate true (some (SchemaModel.mk []))
        (Except.error (GraphQLErrorModel.mk "bad extension" [] (some "client-schema.graphql") true))
        (fun err => [DiagnosticModel.mk err.message 1])
        (fun _ _ => [DiagnosticModel.mk "doc diagnostic" 2])
        [("a.graphql", [0])] = some out ∧
      out.schema = SchemaModel.mk [] ∧
      (∃ t, lookupDiagnostics out.diagnosticSet "client-schema.graphql" =
        (fun (err : GraphQLErrorModel) => [DiagnosticModel.mk err.message 1])
          (GraphQLErrorModel.mk "bad extension" [] (some "client-schema.graphql") true) ++ t) ∧
      out.onDiagnosticsCalls = out.diagnosticSet ∧
      (∀ u docsForFile, (u, docsForFile) ∈ [("a.graphql", [(0 : Nat)])] →
        ∃ p, lookupDiagnostics out.diagnosticSet u =
          p ++ (docsForFile.map ((fun _ _ => [DiagnosticModel.mk "doc diagnostic" 2])
            (SchemaModel.mk []))).flatten) :=
  validate_composition_failure_recovers (SchemaModel.mk [])
    (GraphQLErrorModel.mk "bad extension" [] (some "client-schema.graphql") true)
    (fun err => [DiagnosticModel.mk err.message 1])
    (fun _ _ => [DiagnosticModel.mk "doc diagnostic" 2])
    [("a.graphql", [0])] "client-schema.graphql" rfl rfl (by decide)

/-- C9: for a field node visited by the decoration pass, a text
decoration anchored at that field's range is emitted if and only if the
node's parent type resolves and the latency-stats map holds a sample for
that parent type and field name strictly greater than 1; otherwise the
node produces no decoration at all (and no error: `enterNode` is total). -/
theorem enterNode_text_decoration_iff
    (fieldLatenciesMS : Option (List (String × List (String × Nat))))
    (formatDuration : Nat → String) (runInExplorerLink : VisitedNode → String)
    (uri : String) (node : VisitedNode) (hf : node.kind = NodeKind.field) :
    ((∃ message, enterNode fieldLatenciesMS formatDuration runInExplorerLink uri node =
        some (DecorationModel.text uri message node.range)) ↔
      (∃ parentName engineStatMS, node.parentType = some parentName ∧
        latencySample fieldLatenciesMS parentName node.name = some engineStatMS ∧
        1 < engineStatMS)) ∧
    ((¬ ∃ parentName engineStatMS, node.parentType = some parentName ∧
        latencySample fieldLatenciesMS parentName node.name = some engineStatMS ∧
        1 < engineStatMS) →
      enterNode fieldLatenciesMS formatDuration runInExplorerLink uri node = none) := by
  obtain ⟨kind, nodeName, parentType, range⟩ := node
  simp only at hf
  subst hf
  cases parentType with
  | none =>
    constructor
    · constructor
      · rintro ⟨message, hmsg⟩
        simp [enterNode] at hmsg
      · rintro ⟨parentName, engineStatMS, hpt, _⟩
        simp at hpt
    · intro _
      cases fieldLatenciesMS <;> rfl
  | some parentName =>
    cases fieldLatenciesMS with
    | none =>
      constructor
      · constructor
        · rintro ⟨message, hmsg⟩
          simp [enterNode] at hmsg
        · rintro ⟨parentName2, engineStatMS, hpt, hsample, _⟩
          simp [latencySample] at hsample
      · intro _
        rfl
    | some latencies =>
      cases hs : (alistLookup latencies parentName).bind
          (fun perField => alistLookup perField nodeName) with
      | none =>
        constructor
        · constructor
          · rintro ⟨message, hmsg⟩
            simp [enterNode, hs] at hmsg
          · rintro ⟨parentName2, engineStatMS, hpt, hsample, _⟩
            rw [Option.some_inj] at hpt
            subst hpt
            simp [latencySample, hs] at hsample
        · intro _
          simp [enterNode, hs]
      | some engineStatMS =>
        by_cases hms : 1 < engineStatMS
        · constructor
          · constructor
            · intro _
              exact ⟨parentName, engineStatMS, rfl, by simp [latencySample, hs], hms⟩
            · intro _
              exact ⟨"~" ++ formatDuration engineStatMS, by simp [enterNode, hs, hms]⟩
          · intro hcontra
            exact absurd ⟨parentName, engineStatMS, rfl, by simp [latencySample, hs], hms⟩ hcontra
        · constructor
          · constructor
            · rintro ⟨message, hmsg⟩
              simp [enterNode, hs, hms] at hmsg
            · rintro ⟨parentName2, engineStatMS2, hpt, hsample, hms2⟩
              rw [Option.some_inj] at hpt
              subst hpt
              simp only [latencySample, hs] at hsample
              rw [Option.some_inj] at hsample
              subst hsample
              exact absurd hms2 hms
          · intro _
            simp [enterNode, hs, hms]

/-- Witness for C9, the spec's scenario: latency stats
`Query.user = 250`, a `user` field with parent type `Query`: exactly a
text decoration at the field's range is emitted. -/
theorem enterNode_text_decoration_iff_witness :
    ∃ message, enterNode (some [("Query", [("user", 250)])]) (fun ms => toString ms)
        (fun _ => "") "file.graphql"
        (VisitedNode.mk NodeKind.field "user" (some "Query") 7) =
      some (DecorationModel.text "file.graphql" message 7) :=
  (enterNode_text_decoration_iff (some [("Query", [("user", 250)])]) (fun ms => toString ms)
    (fun _ => "") "file.graphql" (VisitedNode.mk NodeKind.field "user" (some "Query") 7)
    rfl).1.mpr ⟨"Query", 250, rfl, by decide, by decide⟩

end Client
